import Mathlib

/-!
Shallow embedding of the PDF outline extractor (`Challenge 1)a/1_a.py`).

The document decoder (pymupdf) is an external collaborator; the pipeline is
embedded from the point where a document has been decoded into pages of text
elements.  Floating-point coordinates and font sizes are modelled as rationals,
Python's `round` (banker's rounding) is modelled exactly on rationals, and
Python exceptions are modelled with `Except` where a claim depends on them.
Fields of the decoded spans that no claim reads (font name, bounding box,
width, height, page dimensions) are omitted from the record type.
-/

set_option maxRecDepth 8000

namespace OutlineExtractor

/-- Decidable equality for decode results, used to evaluate claims about
re-merging on concrete inputs. -/
instance {α : Type} [DecidableEq α] : DecidableEq (Except String α) := fun a b =>
  match a, b with
  | .error x, .error y =>
    if h : x = y then isTrue (by rw [h]) else isFalse (by intro hc; cases hc; exact h rfl)
  | .ok x, .ok y =>
    if h : x = y then isTrue (by rw [h]) else isFalse (by intro hc; cases hc; exact h rfl)
  | .error _, .ok _ => isFalse (by intro hc; cases hc)
  | .ok _, .error _ => isFalse (by intro hc; cases hc)

/-- Python `round` on a rational: round half to even (banker's rounding). -/
def pyRound (q : ℚ) : ℤ :=
  let f : ℤ := ⌊q⌋
  let frac : ℚ := q - (f : ℚ)
  if frac < 1/2 then f
  else if 1/2 < frac then f + 1
  else if f % 2 = 0 then f else f + 1

/-- Clustering key of `merge_by_line` (source line 64): `round(line_y / tol) * tol`.
The key is computed from the vertical coordinate alone; no page component. -/
def mergeKey (tol y : ℚ) : ℚ := ((pyRound (y / tol) : ℤ) : ℚ) * tol

/-- Source `is_bold` (line 14–15): bit 4 of the style flags. -/
def is_bold (flags : ℕ) : Bool := (flags &&& (1 <<< 4)) != 0

/-- Collapse every whitespace run into a single space (the substitution part of
`clean_text`, over the ASCII whitespace recognised by `Char.isWhitespace`). -/
def squish : Bool → List Char → List Char
  | _, [] => []
  | prev, c :: cs =>
    if c.isWhitespace then
      if prev then squish true cs else ' ' :: squish true cs
    else c :: squish false cs

/-- Strip leading and trailing spaces (after `squish` the only whitespace left
is the plain space character). -/
def stripSpaces (l : List Char) : List Char :=
  ((l.dropWhile (· = ' ')).reverse.dropWhile (· = ' ')).reverse

/-- Source `clean_text` (lines 17–18): collapse whitespace runs to single
spaces and trim. -/
def clean_text (s : String) : String := ⟨stripSpaces (squish false s.data)⟩

/-- Python `str.isdigit` over ASCII: nonempty and all characters are digits. -/
def pyIsDigit (s : String) : Bool := !s.data.isEmpty && s.data.all (·.isDigit)

/-- Python `str.isupper` over ASCII: at least one cased character and every
cased character is upper case. -/
def pyIsUpper (s : String) : Bool :=
  s.data.any (·.isAlpha) && s.data.all (fun c => !c.isAlpha || c.isUpper)

/-- Tail scan for the numbered-list pattern: skip further digits, then require
a dot or a closing parenthesis. -/
def numTail : List Char → Bool
  | [] => false
  | c :: cs => if c.isDigit then numTail cs else (c == '.' || c == ')')

/-- Source regex match of one or more digits followed by a dot or a closing
parenthesis, anchored at the start of the text (line 116). -/
def numberedListStart (s : String) : Bool :=
  match s.data with
  | [] => false
  | c :: cs => c.isDigit && numTail cs

/-- Character scan for Python `str.title` over ASCII: a letter is upper-cased
when the previous character is not a letter, lower-cased otherwise. -/
def titleChars : Bool → List Char → List Char
  | _, [] => []
  | prevAlpha, c :: cs =>
    if c.isAlpha then
      (if prevAlpha then c.toLower else c.toUpper) :: titleChars true cs
    else c :: titleChars false cs

/-- Python `str.title` over ASCII (used by the filename-derived title fallback,
source line 157). -/
def pyTitle (s : String) : String := ⟨titleChars false s.data⟩

/-- A decoded text span as produced by `extract_text_with_metadata`
(source lines 41–57); fields that no claim reads are omitted. -/
structure Element where
  text : String
  size : ℚ
  flags : ℕ
  page : ℕ
  x : ℚ
  relative_x : ℚ
  relative_y : ℚ
  line_y : ℚ
deriving DecidableEq

/-- A merged visual line as produced by `merge_by_line`
(source lines 78–87).  Note: merged records carry `has_bold` but no raw
`x` coordinate. -/
structure MergedLine where
  text : String
  size : ℚ
  flags : ℕ
  has_bold : Bool
  page : ℕ
  relative_x : ℚ
  relative_y : ℚ
  line_y : ℚ
deriving DecidableEq

/-- A final heading record (source lines 128–132). -/
structure Heading where
  level : String
  text : String
  page : ℕ
deriving DecidableEq

/-- The output record `{"title": ..., "outline": [...]}` (source line 175). -/
structure Outline where
  title : String
  outline : List Heading
deriving DecidableEq

/-- Insert a key if absent, preserving insertion order (Python dict key
semantics for `defaultdict` / `Counter`). -/
def insertKey (acc : List ℚ) (x : ℚ) : List ℚ :=
  if x ∈ acc then acc else acc ++ [x]

/-- The distinct values of a list in first-occurrence order: Python dict key
iteration order. -/
def keysInOrder (l : List ℚ) : List ℚ := l.foldl insertKey []

/-- Body of the per-key loop of `merge_by_line` (source lines 68–87): sort the
key's spans by ascending `x`, join and clean their text, skip the group when
the text is empty, else build the merged record whose `line_y` is the
quantized key. -/
def mergeGroup (elements : List Element) (tol k : ℚ) : Option MergedLine :=
  match (elements.filter (fun e => mergeKey tol e.line_y == k)).insertionSort
      (fun a b => a.x ≤ b.x) with
  | [] => none
  | rep :: rest =>
    if clean_text (String.intercalate " " ((rep :: rest).map (fun s => s.text))) = ""
    then none
    else some {
      text := clean_text (String.intercalate " " ((rep :: rest).map (fun s => s.text))),
      size := rest.foldl (fun m s => max m s.size) rep.size,
      flags := rep.flags,
      has_bold := (rep :: rest).any (fun s => is_bold s.flags),
      page := rep.page,
      relative_x := rep.relative_x,
      relative_y := rep.relative_y,
      line_y := k }

/-- Source `merge_by_line` (lines 61–88): group elements by quantized
`line_y` key, iterate the keys in ascending order, and merge each group. -/
def merge_by_line (tol : ℚ) (elements : List Element) : List MergedLine :=
  ((keysInOrder (elements.map (fun e => mergeKey tol e.line_y))).insertionSort
      (· ≤ ·)).filterMap (mergeGroup elements tol)

/-- Sizes of the lines with positive font size (source line 91). -/
def lineSizes (lines : List MergedLine) : List ℚ :=
  (lines.filter (fun l => decide (0 < l.size))).map (fun l => l.size)

/-- Source `counts.most_common(1)[0][0]` (line 96): the most frequent size;
`heapq.nlargest` breaks count ties in favour of the first-inserted key. -/
def mostCommonSize (sizes : List ℚ) : ℚ :=
  match keysInOrder sizes with
  | [] => 12
  | k :: ks =>
    ks.foldl (fun best k2 => if sizes.count best < sizes.count k2 then k2 else best) k

/-- The significant-size comprehension of `analyze_font_distribution`
(source line 97): distinct sizes, in first-occurrence order, strictly greater
than the base size and occurring in fewer than 40% of all lines. -/
def significantRaw (lines : List MergedLine) : List ℚ :=
  (keysInOrder (lineSizes lines)).filter
    (fun s => decide (mostCommonSize (lineSizes lines) < s) &&
      decide (((lineSizes lines).count s : ℚ) < (lines.length : ℚ) * (2/5)))

/-- Source `analyze_font_distribution` (lines 90–104): on an empty size list
return `([], 12)`; otherwise the first three significant sizes sorted
descending, paired with the most frequent size. -/
def analyze_font_distribution (lines : List MergedLine) : List ℚ × ℚ :=
  if (lineSizes lines).isEmpty then ([], 12)
  else (((significantRaw lines).insertionSort (· ≥ ·)).take 3,
    mostCommonSize (lineSizes lines))

/-- Source `is_heading_candidate` (lines 106–120): the rule cascade on one
merged line. -/
def is_heading_candidate (element : MergedLine) (sig_sizes : List ℚ)
    (base_size : ℚ) : Bool :=
  let txt := clean_text element.text
  if decide (txt.length < 3) || pyIsDigit txt then false
  else if element.size ∈ sig_sizes then true
  else if element.has_bold && decide (base_size ≤ element.size) then true
  else if pyIsUpper txt && decide (6 < txt.length) then true
  else if numberedListStart txt then true
  else if element.relative_y < 1/5 then true
  else false

/-- The level dictionary lookup of `assign_heading_levels` (source lines
122–126): `{size: f"H{i+1}" for i, size in enumerate(sig_sizes)}` built left to
right with later entries overwriting earlier ones, read with default `"H3"`. -/
def levelOf (sig_sizes : List ℚ) (s : ℚ) : String :=
  (sig_sizes.enum).foldl
    (fun acc p => if p.2 = s then "H" ++ toString (p.1 + 1) else acc) "H3"

/-- Source `assign_heading_levels` (lines 122–133). -/
def assign_heading_levels (candidates : List MergedLine) (sig_sizes : List ℚ) :
    List Heading :=
  candidates.map (fun c =>
    { level := levelOf sig_sizes c.size, text := clean_text c.text, page := c.page })

/-- The first-page candidate collection of `get_title` (source lines 139–143):
cleaned text longer than 10 characters in the top 30% of the page. -/
def titleCandidates (first_page : List Element) : List (ℚ × String) :=
  first_page.filterMap (fun e =>
    if 10 < (clean_text e.text).length ∧ e.relative_y < 3/10 then
      some (e.size, clean_text e.text)
    else none)

/-- Python `sorted(cand, key=lambda x: x[0], reverse=True)` (source line 146):
a stable descending sort on the size component. -/
def sortBySizeDesc (cand : List (ℚ × String)) : List (ℚ × String) :=
  cand.insertionSort (fun a b => b.1 ≤ a.1)

/-- Source `get_title` (lines 135–147). -/
def get_title (pages : List (List Element)) : String :=
  match pages with
  | [] => ""
  | first_page :: _ =>
    match sortBySizeDesc (titleCandidates first_page) with
    | [] => ""
    | p :: _ => p.2

/-- The deduplication loop of `extract_outline` (source lines 167–173), with
the `seen` set of `(level, text)` keys made explicit. -/
def dedupHeadingsGo (seen : List (String × String)) : List Heading → List Heading
  | [] => []
  | h :: t =>
    if (h.level, h.text) ∉ seen ∧ 3 < h.text.length then
      h :: dedupHeadingsGo ((h.level, h.text) :: seen) t
    else
      dedupHeadingsGo seen t

/-- Deduplication of the heading sequence, starting from an empty `seen` set. -/
def dedupHeadings (headings : List Heading) : List Heading := dedupHeadingsGo [] headings

/-- The pre-deduplication heading sequence of one document (source lines
159–164): flatten the pages, merge lines with tolerance 3, analyze the font
distribution, filter the heading candidates, and assign levels. -/
def documentHeadings (pages : List (List Element)) : List Heading :=
  let merged := merge_by_line 3 pages.flatten
  let sb := analyze_font_distribution merged
  assign_heading_levels (merged.filter (fun el => is_heading_candidate el sb.1 sb.2)) sb.1

/-- The filename-derived fallback title (source line 157): underscores to
spaces, then title-cased. -/
def fallbackTitle (stem : String) : String := pyTitle (stem.replace "_" " ")

/-- Source `extract_outline` (lines 149–178).  The decoded document arrives as
an `Except`: the `try` block's failure modes (decoder failure, malformed
input) are caught at the document boundary and yield the degraded record
`{title: stem, outline: []}` (line 178, with the raw stem, no title-casing). -/
def extract_outline (stem : String)
    (decoded : Except String (List (List Element))) : Outline :=
  match decoded with
  | .error _ => { title := stem, outline := [] }
  | .ok pages =>
    let t0 := get_title pages
    { title := if t0 = "" then fallbackTitle stem else t0,
      outline := dedupHeadings (documentHeadings pages) }

/-- Source `process_folder` / `process_and_save` (lines 180–202): each
discovered document is processed independently; one output record is produced
per input document. -/
def process_folder
    (docs : List (String × Except String (List (List Element)))) : List Outline :=
  docs.map (fun d => extract_outline d.1 d.2)

/-- One key's step of `merge_by_line` when the input records are already
merged lines: the span sort `spans.sort(key=lambda e: e["x"])` evaluates
`e["x"]` for every span of the group, and merged records carry no `"x"` key,
so any nonempty group raises a `KeyError`. -/
def remergeGo (ls : List MergedLine) (tol : ℚ) :
    List ℚ → Except String (List MergedLine)
  | [] => .ok []
  | k :: ks =>
    match ls.filter (fun l => mergeKey tol l.line_y == k) with
    | [] => remergeGo ls tol ks
    | _ :: _ => .error "KeyError: x"

/-- The source function `merge_by_line` applied to its own output (re-merging
already-merged records): same grouping by quantized `line_y` and ascending key
iteration, but the per-group span sort fails with a `KeyError` because merged
records lack the `x` field. -/
def merge_by_line_remerge (tol : ℚ) (ls : List MergedLine) :
    Except String (List MergedLine) :=
  remergeGo ls tol
    ((keysInOrder (ls.map (fun l => mergeKey tol l.line_y))).insertionSort (· ≤ ·))

/-- Decoder-resource events of one `extract_outline` run. -/
inductive DocEvent where
  | openDoc : DocEvent
  | closeDoc : DocEvent
deriving DecidableEq

/-- Resource trace of `extract_outline` (source lines 150–153 with the
handler at line 176): `pymupdf.open`, then text extraction, then `doc.close()`.
`close` is a plain statement after the extraction call, not a `finally` block
or context manager, so it runs only when extraction returns normally. -/
def extract_outline_events (open_fails extract_fails : Bool) : List DocEvent :=
  if open_fails then []
  else if extract_fails then [DocEvent.openDoc]
  else [DocEvent.openDoc, DocEvent.closeDoc]

/-- Specification-side measure: the largest occurrence count among the
distinct sizes (used to state the most-frequent-size tie-break). -/
def maxCountKey (sizes : List ℚ) : ℕ :=
  match keysInOrder sizes with
  | [] => 0
  | k :: ks => ks.foldl (fun m k2 => max m (sizes.count k2)) (sizes.count k)

/-- Specification-side measure: the largest font size among title candidates
(used to state the title tie-break). -/
def maxFst (cand : List (ℚ × String)) : ℚ :=
  match cand with
  | [] => 0
  | p :: ps => ps.foldl (fun m q => max m q.1) p.1

/-- Helper for building concrete decoded spans in the evaluated statements. -/
def sampleElem (text : String) (size : ℚ) (flags page : ℕ) (x rely liney : ℚ) : Element :=
  { text := text, size := size, flags := flags, page := page, x := x,
    relative_x := 0, relative_y := rely, line_y := liney }

/-- Concrete input: a fragment on page 1 with line-y 100. -/
def pageOneFrag : Element := sampleElem "left frag" 12 0 1 10 (1/2) 100

/-- Concrete input: a fragment on page 2, also with line-y 100. -/
def pageTwoFrag : Element := sampleElem "right frag" 12 0 2 40 (1/2) 100

/-- Concrete input: a fragment with line-y 100 (quantized key 99 at tolerance 3). -/
def fragY100 : Element := sampleElem "aaaa" 12 0 1 10 (1/2) 100

/-- Concrete input: a fragment with line-y 101 (quantized key 102 at tolerance 3). -/
def fragY101 : Element := sampleElem "bbbb" 12 0 1 10 (1/2) 101

/-- Concrete input: a fragment with line-y 102 (quantized key 102 at tolerance 3). -/
def fragY102 : Element := sampleElem "cccc" 12 0 1 20 (1/2) 102

/-- Concrete input: a bold 20pt line near the bottom of page 1. -/
def alphaHeading : Element := sampleElem "Alpha Heading" 20 16 1 10 (9/10) 700

/-- Concrete input: a bold 20pt line near the top of page 2. -/
def betaHeading : Element := sampleElem "Beta Heading" 20 16 2 10 (1/20) 50

/-- Concrete two-page document: one late line on page 1, one early line on page 2. -/
def twoPageDoc : List (List Element) := [[alphaHeading], [betaHeading]]

/-- Concrete input for re-merging: a single ordinary fragment. -/
def remergeFrag : Element := sampleElem "abcd efgh" 12 0 1 10 (1/2) 100

/-- Concrete merged line of size 24 for the font-statistics witness. -/
def bigLine : MergedLine :=
  { text := "Chapter Heading", size := 24, flags := 16, has_bold := true, page := 1,
    relative_x := 0, relative_y := 1/20, line_y := 51 }

/-- Concrete body-text merged line of size 10. -/
def bodyLineA : MergedLine :=
  { text := "body text one", size := 10, flags := 0, has_bold := false, page := 1,
    relative_x := 0, relative_y := 1/2, line_y := 300 }

/-- Concrete second body-text merged line of size 10. -/
def bodyLineB : MergedLine :=
  { text := "body text two", size := 10, flags := 0, has_bold := false, page := 1,
    relative_x := 0, relative_y := 3/5, line_y := 399 }

/-- Concrete candidate line of size 16 for the level-assignment witness. -/
def sizeSixteenLine : MergedLine :=
  { text := "Some Heading", size := 16, flags := 16, has_bold := true, page := 1,
    relative_x := 0, relative_y := 1/10, line_y := 99 }

/-- Concrete heading for the deduplication witness. -/
def introHeading : Heading := { level := "H1", text := "Introduction", page := 1 }

/-- Concrete heading with the same (level, text) key on a later page. -/
def introHeadingPageTwo : Heading := { level := "H1", text := "Introduction", page := 2 }

/-- Concrete heading whose text is too short to survive deduplication. -/
def shortHeading : Heading := { level := "H2", text := "abc", page := 1 }

end OutlineExtractor

namespace OutlineExtractor

/-- C1: Page isolation of line merging fails in the code: `merge_by_line`
keys a fragment only by `round(line_y / tol) * tol` with no page component, so
the two fragments with line-y 100 on pages 1 and 2 are merged into a single
line, which is attributed to the leftmost fragment's page (page 1). -/
theorem c1_cross_page_fragments_merge :
    (merge_by_line 3 [pageOneFrag, pageTwoFrag]).length = 1 ∧
    (merge_by_line 3 [pageOneFrag, pageTwoFrag]).map (fun m => m.page) = [1] ∧
    (merge_by_line 3 [pageOneFrag, pageTwoFrag]).map (fun m => m.text) =
      ["left frag right frag"] := by
  with_unfolding_all decide

/-- C4 counterexample: with tolerance 3 the fragments with line-y 100 and 101
on the same page quantize to different keys (99 and 102), so `merge_by_line`
keeps them as two separate lines, contradicting the claim that they merge
into one. -/
theorem c4_y100_y101_stay_separate :
    (merge_by_line 3 [fragY100, fragY101]).length = 2 ∧
    ¬ (merge_by_line 3 [fragY100, fragY101]).length = 1 := by
  with_unfolding_all decide

/-- C4 amended: fragments merge exactly when their line-y values round to the
same multiple of the tolerance; 100 rounds to 99 while 101 and 102 both round
to 102, so 100 and 101 do not merge but 101 and 102 merge into one line. -/
theorem c4_merging_follows_quantized_keys :
    mergeKey 3 100 = 99 ∧ mergeKey 3 101 = 102 ∧ mergeKey 3 102 = 102 ∧
    (merge_by_line 3 [fragY101, fragY102]).length = 1 ∧
    (merge_by_line 3 [fragY101, fragY102]).map (fun m => m.text) = ["bbbb cccc"] := by
  with_unfolding_all decide

/-- C9: the decoder handle is not released on the failure path: when the
document opens but text extraction raises, the run's resource trace contains
the open event and no close event, because `doc.close()` is an ordinary
statement rather than a `finally` block; on the success path both events
occur. -/
theorem c9_close_skipped_on_extract_failure :
    extract_outline_events false true = [DocEvent.openDoc] ∧
    DocEvent.closeDoc ∉ extract_outline_events false true ∧
    extract_outline_events false false = [DocEvent.openDoc, DocEvent.closeDoc] := by
  decide

/-- C2: per-document failure isolation: a document whose processing fails
produces exactly the degraded record with the document identifier as title and
an empty outline, and a failing document in the middle of a batch leaves the
outputs of every other document unchanged (the batch is never aborted). -/
theorem c2_per_document_failure_isolation :
    (∀ (stem msg : String),
      extract_outline stem (Except.error msg) = { title := stem, outline := [] }) ∧
    (∀ (pre post : List (String × Except String (List (List Element))))
      (stem msg : String),
      process_folder (pre ++ (stem, Except.error msg) :: post) =
        process_folder pre ++
          ({ title := stem, outline := [] } : Outline) :: process_folder post) := by
  constructor
  · intro stem msg
    rfl
  · intro pre post stem msg
    simp [process_folder, extract_outline]

/-- Membership in `insertKey`: the inserted key is added when absent. -/
theorem mem_insertKey {acc : List ℚ} {x y : ℚ} :
    y ∈ insertKey acc x ↔ y ∈ acc ∨ y = x := by
  unfold insertKey
  split
  · rename_i hx
    constructor
    · exact Or.inl
    · rintro (hy | rfl)
      · exact hy
      · exact hx
  · simp

/-- `insertKey` preserves distinctness of the accumulated key list. -/
theorem insertKey_nodup {acc : List ℚ} (h : acc.Nodup) (x : ℚ) :
    (insertKey acc x).Nodup := by
  unfold insertKey
  split
  · exact h
  · rename_i hx
    refine List.Nodup.append h (List.nodup_singleton x) ?_
    intro a ha hb
    rw [List.mem_singleton] at hb
    subst hb
    exact hx ha

/-- Folding `insertKey` over any list preserves distinctness. -/
theorem foldl_insertKey_nodup :
    ∀ (l acc : List ℚ), acc.Nodup → (l.foldl insertKey acc).Nodup := by
  intro l
  induction l with
  | nil => exact fun acc h => h
  | cons x t ih => exact fun acc h => ih _ (insertKey_nodup h x)

/-- The first-occurrence key list is duplicate-free. -/
theorem keysInOrder_nodup (l : List ℚ) : (keysInOrder l).Nodup :=
  foldl_insertKey_nodup l [] List.nodup_nil

/-- Membership after folding `insertKey`. -/
theorem mem_foldl_insertKey :
    ∀ (l acc : List ℚ) (y : ℚ), y ∈ l.foldl insertKey acc ↔ y ∈ acc ∨ y ∈ l := by
  intro l
  induction l with
  | nil => simp
  | cons x t ih =>
    intro acc y
    rw [List.foldl_cons, ih, mem_insertKey]
    simp [or_assoc]

/-- The first-occurrence key list has the same members as the input. -/
theorem mem_keysInOrder {l : List ℚ} {y : ℚ} : y ∈ keysInOrder l ↔ y ∈ l := by
  unfold keysInOrder
  rw [mem_foldl_insertKey]
  simp

/-- A nonempty list has a nonempty key list. -/
theorem keysInOrder_ne_nil {l : List ℚ} (h : l ≠ []) : keysInOrder l ≠ [] := by
  cases l with
  | nil => exact absurd rfl h
  | cons x t =>
    intro hk
    have hx : x ∈ keysInOrder (x :: t) := mem_keysInOrder.mpr (List.mem_cons_self x t)
    rw [hk] at hx
    exact absurd hx (List.not_mem_nil x)

/-- Every merged record produced for key `k` carries `k` as its `line_y`. -/
theorem mergeGroup_line_y {elements : List Element} {tol k : ℚ} {m : MergedLine}
    (h : mergeGroup elements tol k = some m) : m.line_y = k := by
  unfold mergeGroup at h
  split at h
  · exact Option.noConfusion h
  · split at h
    · exact Option.noConfusion h
    · injection h with h2
      rw [← h2]

/-- Merged lines generated from strictly ascending keys have strictly
ascending `line_y`. -/
theorem pairwise_lt_filterMap_mergeGroup {keys : List ℚ} {elements : List Element}
    {tol : ℚ} (hp : keys.Pairwise (· < ·)) :
    (keys.filterMap (mergeGroup elements tol)).Pairwise
      (fun a b => a.line_y < b.line_y) := by
  induction keys with
  | nil => simp
  | cons k ks ih =>
    rw [List.pairwise_cons] at hp
    rw [List.filterMap_cons]
    cases hmk : mergeGroup elements tol k with
    | none => exact ih hp.2
    | some m =>
      refine List.Pairwise.cons ?_ (ih hp.2)
      intro b hb
      obtain ⟨k2, hk2, hbk⟩ := List.mem_filterMap.mp hb
      rw [mergeGroup_line_y hmk, mergeGroup_line_y hbk]
      exact hp.1 k2 hk2

/-- The merged lines of any document are emitted in strictly ascending order
of their quantized `line_y` keys (globally, across all pages). -/
theorem merge_by_line_ascending (tol : ℚ) (elements : List Element) :
    (merge_by_line tol elements).Pairwise (fun a b => a.line_y < b.line_y) := by
  unfold merge_by_line
  apply pairwise_lt_filterMap_mergeGroup
  have hs := List.sorted_insertionSort (· ≤ ·)
    (keysInOrder (elements.map (fun e => mergeKey tol e.line_y)))
  have hn : ((keysInOrder (elements.map (fun e => mergeKey tol e.line_y))).insertionSort
      (· ≤ ·)).Nodup :=
    ((List.perm_insertionSort (· ≤ ·) _).nodup_iff).mpr (keysInOrder_nodup _)
  exact hs.lt_of_le hn

/-- The deduplication pass keeps a subsequence of its input: relative order is
never changed. -/
theorem dedupGo_sublist :
    ∀ (l : List Heading) (seen : List (String × String)),
      (dedupHeadingsGo seen l).Sublist l := by
  intro l
  induction l with
  | nil => intro seen; simp [dedupHeadingsGo]
  | cons x t ih =>
    intro seen
    rw [dedupHeadingsGo]
    split
    · exact (ih _).cons₂ x
    · exact (ih _).cons x

/-- C3 counterexample: a two-page document whose only page-1 line sits low on
the page and whose only page-2 line sits high.  The output outline lists the
page-2 heading before the page-1 heading, so the outline is not in
page-ascending document order. -/
theorem c3_outline_not_page_ascending :
    ((extract_outline "doc" (Except.ok twoPageDoc)).outline.map (fun h => h.page))
      = [2, 1] ∧
    ¬ ((extract_outline "doc" (Except.ok twoPageDoc)).outline.map
        (fun h => h.page)).Pairwise (· ≤ ·) := by
  with_unfolding_all decide

/-- C3 amended: the outline is the order-preserving deduplication of the
heading sequence, whose order is the merged-line order: globally ascending
quantized line-y, with pages interleaved rather than page-ascending. -/
theorem c3_outline_follows_merged_order :
    (∀ (stem : String) (pages : List (List Element)),
      (extract_outline stem (Except.ok pages)).outline =
        dedupHeadings (documentHeadings pages)) ∧
    (∀ (headings : List Heading), (dedupHeadings headings).Sublist headings) ∧
    (∀ (tol : ℚ) (elements : List Element),
      (merge_by_line tol elements).Pairwise (fun a b => a.line_y < b.line_y)) := by
  refine ⟨fun stem pages => rfl, fun headings => dedupGo_sublist headings [], ?_⟩
  exact merge_by_line_ascending

/-- C5: the significant-size list returned by the analyzer has length at most
3, is strictly descending, has no duplicates, and every element is strictly
greater than the returned base size. -/
theorem c5_significant_sizes_invariant (lines : List MergedLine) :
    (analyze_font_distribution lines).1.length ≤ 3 ∧
    (analyze_font_distribution lines).1.Sorted (· > ·) ∧
    (analyze_font_distribution lines).1.Nodup ∧
    ∀ s ∈ (analyze_font_distribution lines).1, (analyze_font_distribution lines).2 < s := by
  unfold analyze_font_distribution
  split
  · simp
  · dsimp only
    have hnd : (significantRaw lines).Nodup := (keysInOrder_nodup _).filter _
    have hsorted := List.sorted_insertionSort (· ≥ ·) (significantRaw lines)
    have hnd2 : ((significantRaw lines).insertionSort (· ≥ ·)).Nodup :=
      ((List.perm_insertionSort (· ≥ ·) _).nodup_iff).mpr hnd
    have hgt := hsorted.gt_of_ge hnd2
    refine ⟨?_, ?_, ?_, ?_⟩
    · rw [List.length_take]
      exact min_le_left _ _
    · exact hgt.sublist (List.take_sublist _ _)
    · exact hnd2.sublist (List.take_sublist _ _)
    · intro s hs
      have hs2 : s ∈ (significantRaw lines).insertionSort (· ≥ ·) :=
        (List.take_sublist _ _).subset hs
      rw [List.mem_insertionSort] at hs2
      unfold significantRaw at hs2
      rw [List.mem_filter] at hs2
      have hp := hs2.2
      simp only [Bool.and_eq_true, decide_eq_true_eq] at hp
      exact hp.1

/-- C5 witness: on a document with one 24pt heading line and two 10pt body
lines, the significant size 24 is strictly greater than the returned base
size. -/
theorem c5_significant_sizes_invariant_witness :
    (analyze_font_distribution [bigLine, bodyLineA, bodyLineB]).2 < 24 :=
  (c5_significant_sizes_invariant [bigLine, bodyLineA, bodyLineB]).2.2.2 24
    (by with_unfolding_all decide)

/-- Folding the level dictionary over entries whose size never matches leaves
the accumulator unchanged. -/
theorem levelFold_not_mem (s : ℚ) :
    ∀ (l : List ℚ) (n : ℕ) (acc : String), s ∉ l →
      (List.enumFrom n l).foldl
        (fun acc p => if p.2 = s then "H" ++ toString (p.1 + 1) else acc) acc = acc := by
  intro l
  induction l with
  | nil => intro n acc _; rfl
  | cons x t ih =>
    intro n acc h
    rw [List.enumFrom_cons, List.foldl_cons]
    have hx : ¬ x = s := fun he => h (he ▸ List.mem_cons_self x t)
    rw [if_neg hx]
    exact ih (n + 1) acc (fun hm => h (List.mem_cons_of_mem x hm))

/-- Folding the level dictionary over a duplicate-free list whose entry at
index `i` matches yields the level for index `i`. -/
theorem levelFold_get (s : ℚ) :
    ∀ (l : List ℚ), l.Nodup → ∀ (n : ℕ) (acc : String) (i : ℕ) (hi : i < l.length),
      l.get ⟨i, hi⟩ = s →
      (List.enumFrom n l).foldl
        (fun acc p => if p.2 = s then "H" ++ toString (p.1 + 1) else acc) acc =
        "H" ++ toString (n + i + 1) := by
  intro l
  induction l with
  | nil => intro _ n acc i hi; exact absurd hi (Nat.not_lt_zero i)
  | cons x t ih =>
    intro hnd n acc i hi hget
    rw [List.enumFrom_cons, List.foldl_cons]
    rw [List.nodup_cons] at hnd
    cases i with
    | zero =>
      have hx : x = s := hget
      rw [if_pos hx]
      rw [levelFold_not_mem s t (n + 1) _ (hx ▸ hnd.1)]
    | succ j =>
      have hj : j < t.length := Nat.lt_of_succ_lt_succ hi
      have hget2 : t.get ⟨j, hj⟩ = s := hget
      have hsmem : s ∈ t := hget2 ▸ List.get_mem t j hj
      have hsx : ¬ x = s := fun he => hnd.1 (he ▸ hsmem)
      rw [if_neg hsx, ih hnd.2 (n + 1) acc j hj hget2]
      congr 2
      omega

/-- A size not present in the significant list maps to the default level. -/
theorem levelOf_not_mem {sig : List ℚ} {s : ℚ} (h : s ∉ sig) :
    levelOf sig s = "H3" :=
  levelFold_not_mem s sig 0 "H3" h

/-- A size present at index `i` of a duplicate-free significant list maps to
the level named after position `i + 1`. -/
theorem levelOf_get {sig : List ℚ} (hnd : sig.Nodup) {s : ℚ} {i : ℕ}
    (hi : i < sig.length) (hget : sig.get ⟨i, hi⟩ = s) :
    levelOf sig s = "H" ++ toString (i + 1) := by
  have h := levelFold_get s sig hnd 0 "H3" i hi hget
  rw [Nat.zero_add] at h
  exact h

/-- C6: a candidate whose size equals the largest significant size is
assigned level H1, the second-largest H2, the third-largest H3, and a
candidate whose size is not among the significant sizes gets the default H3;
text and page are carried over from the candidate. -/
theorem c6_level_assignment (sig_sizes : List ℚ) (hsig : sig_sizes.Sorted (· > ·))
    (c : MergedLine) :
    ∃ h, assign_heading_levels [c] sig_sizes = [h] ∧
      h.text = clean_text c.text ∧ h.page = c.page ∧
      (∀ (h0 : 0 < sig_sizes.length), c.size = sig_sizes.get ⟨0, h0⟩ → h.level = "H1") ∧
      (∀ (h1 : 1 < sig_sizes.length), c.size = sig_sizes.get ⟨1, h1⟩ → h.level = "H2") ∧
      (∀ (h2 : 2 < sig_sizes.length), c.size = sig_sizes.get ⟨2, h2⟩ → h.level = "H3") ∧
      (c.size ∉ sig_sizes → h.level = "H3") := by
  have hnd : sig_sizes.Nodup := hsig.imp (fun hab => ne_of_gt hab)
  refine ⟨⟨levelOf sig_sizes c.size, clean_text c.text, c.page⟩,
    rfl, rfl, rfl, ?_, ?_, ?_, ?_⟩
  · intro h0 hget
    show levelOf sig_sizes c.size = "H1"
    rw [levelOf_get hnd h0 hget.symm]
    decide
  · intro h1 hget
    show levelOf sig_sizes c.size = "H2"
    rw [levelOf_get hnd h1 hget.symm]
    decide
  · intro h2 hget
    show levelOf sig_sizes c.size = "H3"
    rw [levelOf_get hnd h2 hget.symm]
    decide
  · intro hmem
    exact levelOf_not_mem hmem

/-- C6 witness: with significant sizes 20, 16, 14, a candidate of size 16 is
assigned level H2. -/
theorem c6_level_assignment_witness :
    ∃ h, assign_heading_levels [sizeSixteenLine] [20, 16, 14] = [h] ∧
      h.level = "H2" := by
  obtain ⟨h, heq, _, _, _, hH2, _, _⟩ :=
    c6_level_assignment [20, 16, 14] (by with_unfolding_all decide) sizeSixteenLine
  exact ⟨h, heq, hH2 (by decide) (by with_unfolding_all decide)⟩

/-- Every heading surviving deduplication has text longer than 3 characters. -/
theorem dedupGo_long :
    ∀ (l : List Heading) (seen : List (String × String)) (h : Heading),
      h ∈ dedupHeadingsGo seen l → 3 < h.text.length := by
  intro l
  induction l with
  | nil => intro seen h hm; simp [dedupHeadingsGo] at hm
  | cons x t ih =>
    intro seen h hm
    rw [dedupHeadingsGo] at hm
    split at hm
    · rename_i hc
      rcases List.mem_cons.mp hm with rfl | hm2
      · exact hc.2
      · exact ih _ h hm2
    · exact ih _ h hm

/-- Every heading surviving deduplication has a key that was not yet seen. -/
theorem dedupGo_key_not_seen :
    ∀ (l : List Heading) (seen : List (String × String)) (h : Heading),
      h ∈ dedupHeadingsGo seen l → (h.level, h.text) ∉ seen := by
  intro l
  induction l with
  | nil => intro seen h hm; simp [dedupHeadingsGo] at hm
  | cons x t ih =>
    intro seen h hm
    rw [dedupHeadingsGo] at hm
    split at hm
    · rename_i hc
      rcases List.mem_cons.mp hm with rfl | hm2
      · exact hc.1
      · exact fun hs => ih _ h hm2 (List.mem_cons_of_mem _ hs)
    · exact ih _ h hm

/-- Every long-enough input heading whose key is not yet seen is represented
in the deduplicated output by a heading with the same key. -/
theorem dedupGo_covers :
    ∀ (l : List Heading) (seen : List (String × String)) (h : Heading),
      h ∈ l → 3 < h.text.length → (h.level, h.text) ∉ seen →
      ∃ g ∈ dedupHeadingsGo seen l, g.level = h.level ∧ g.text = h.text := by
  intro l
  induction l with
  | nil => intro seen h hm; exact absurd hm (List.not_mem_nil h)
  | cons x t ih =>
    intro seen h hm hlong hns
    rw [dedupHeadingsGo]
    split
    · rename_i hc
      rcases List.mem_cons.mp hm with rfl | hm2
      · exact ⟨h, List.mem_cons_self _ _, rfl, rfl⟩
      · by_cases hkey : (h.level, h.text) = (x.level, x.text)
        · obtain ⟨h1, h2⟩ := Prod.ext_iff.mp hkey
          exact ⟨x, List.mem_cons_self _ _, h1.symm, h2.symm⟩
        · have hns2 : (h.level, h.text) ∉ (x.level, x.text) :: seen := by
            intro hmm
            rcases List.mem_cons.mp hmm with he | hs
            · exact hkey he
            · exact hns hs
          obtain ⟨g, hg, hgl, hgt⟩ := ih _ h hm2 hlong hns2
          exact ⟨g, List.mem_cons_of_mem _ hg, hgl, hgt⟩
    · rename_i hc
      rcases List.mem_cons.mp hm with rfl | hm2
      · exact absurd ⟨hns, hlong⟩ hc
      · exact ih _ h hm2 hlong hns

/-- Every heading in the deduplicated output is the first input heading
carrying its (level, text) key. -/
theorem dedupGo_first :
    ∀ (l : List Heading) (seen : List (String × String)) (h : Heading),
      h ∈ dedupHeadingsGo seen l →
      l.find? (fun g => g.level == h.level && g.text == h.text) = some h := by
  intro l
  induction l with
  | nil => intro seen h hm; simp [dedupHeadingsGo] at hm
  | cons x t ih =>
    intro seen h hm
    rw [dedupHeadingsGo] at hm
    split at hm
    · rename_i hc
      rcases List.mem_cons.mp hm with rfl | hm2
      · rw [List.find?_cons_of_pos]
        simp
      · have hkns := dedupGo_key_not_seen t _ h hm2
        have hne : ¬ x.level = h.level ∨ ¬ x.text = h.text := by
          by_contra hcon
          push_neg at hcon
          exact hkns (by rw [← hcon.1, ← hcon.2]; exact List.mem_cons_self _ _)
        have hpx : ¬ (x.level == h.level && x.text == h.text) = true := by
          rcases hne with h1 | h1 <;> simp [h1]
        rw [List.find?_cons_of_neg]
        · exact ih _ h hm2
        · exact hpx
    · rename_i hc
      have hkns := dedupGo_key_not_seen t _ h hm
      have hlg := dedupGo_long t _ h hm
      have hpx : ¬ (x.level == h.level && x.text == h.text) = true := by
        by_contra hcon
        simp only [Bool.and_eq_true, beq_iff_eq] at hcon
        apply hc
        constructor
        · rw [hcon.1, hcon.2]
          exact hkns
        · rw [hcon.2]
          exact hlg
      rw [List.find?_cons_of_neg]
      · exact ih _ h hm
      · exact hpx

/-- The deduplicated output carries pairwise distinct (level, text) keys. -/
theorem dedupGo_keys_pairwise :
    ∀ (l : List Heading) (seen : List (String × String)),
      (dedupHeadingsGo seen l).Pairwise
        (fun a b => ¬ (a.level, a.text) = (b.level, b.text)) := by
  intro l
  induction l with
  | nil => intro seen; simp [dedupHeadingsGo]
  | cons x t ih =>
    intro seen
    rw [dedupHeadingsGo]
    split
    · refine List.Pairwise.cons ?_ (ih _)
      intro b hb he
      exact dedupGo_key_not_seen t _ b hb (he ▸ List.mem_cons_self _ _)
    · exact ih _

/-- A heading list that is long-enough throughout, has pairwise distinct keys,
and shares no key with `seen` passes through deduplication unchanged. -/
theorem dedupGo_fix :
    ∀ (l : List Heading) (seen : List (String × String)),
      (∀ h ∈ l, 3 < h.text.length) →
      l.Pairwise (fun a b => ¬ (a.level, a.text) = (b.level, b.text)) →
      (∀ h ∈ l, (h.level, h.text) ∉ seen) →
      dedupHeadingsGo seen l = l := by
  intro l
  induction l with
  | nil => intro seen _ _ _; rfl
  | cons x t ih =>
    intro seen hlong hpw hns
    rw [List.pairwise_cons] at hpw
    rw [dedupHeadingsGo,
      if_pos ⟨hns x (List.mem_cons_self _ _), hlong x (List.mem_cons_self _ _)⟩]
    congr 1
    apply ih
    · exact fun h hm => hlong h (List.mem_cons_of_mem _ hm)
    · exact hpw.2
    · intro h hm hin
      rcases List.mem_cons.mp hin with he | hs
      · exact hpw.1 h hm he.symm
      · exact hns h (List.mem_cons_of_mem _ hm) hs

/-- C7: deduplication keeps a subsequence of its input (preserving relative
order), every kept heading has text longer than 3 characters, every distinct
long-enough (level, text) key of the input is represented, each kept heading
is the first input occurrence of its key, and deduplicating an already
deduplicated sequence changes nothing. -/
theorem c7_dedup_contract (headings : List Heading) :
    (dedupHeadings headings).Sublist headings ∧
    (∀ h ∈ dedupHeadings headings, 3 < h.text.length) ∧
    (∀ h ∈ headings, 3 < h.text.length →
      ∃ g ∈ dedupHeadings headings, g.level = h.level ∧ g.text = h.text) ∧
    (∀ h ∈ dedupHeadings headings,
      headings.find? (fun g => g.level == h.level && g.text == h.text) = some h) ∧
    dedupHeadings (dedupHeadings headings) = dedupHeadings headings := by
  refine ⟨dedupGo_sublist headings [], fun h hm => dedupGo_long headings [] h hm,
    fun h hm hl => dedupGo_covers headings [] h hm hl (List.not_mem_nil _),
    fun h hm => dedupGo_first headings [] h hm, ?_⟩
  apply dedupGo_fix
  · exact fun h hm => dedupGo_long headings [] h hm
  · exact dedupGo_keys_pairwise headings []
  · exact fun h _ => List.not_mem_nil _

/-- C7 witness: in a sequence with a repeated (H1, Introduction) key and a
too-short heading, a heading with the (H1, Introduction) key survives
deduplication. -/
theorem c7_dedup_contract_witness :
    ∃ g ∈ dedupHeadings [introHeading, introHeadingPageTwo, shortHeading],
      g.level = introHeading.level ∧ g.text = introHeading.text :=
  (c7_dedup_contract [introHeading, introHeadingPageTwo, shortHeading]).2.2.1
    introHeading (List.mem_cons_self _ _) (by decide)

/-- C8 counterexample: applying the Line Merger to its own (nonempty) output
does not return the same line set: the attempted span sort looks up the `x`
key, which merged records do not carry, so the call fails with a `KeyError`
instead of returning the merged lines unchanged. -/
theorem c8_remerge_raises_key_error :
    merge_by_line_remerge 3 (merge_by_line 3 [remergeFrag]) =
      Except.error "KeyError: x" ∧
    ¬ merge_by_line_remerge 3 (merge_by_line 3 [remergeFrag]) =
        Except.ok (merge_by_line 3 [remergeFrag]) := by
  with_unfolding_all decide

/-- Python `round` is the identity on integers. -/
theorem pyRound_intCast (k : ℤ) : pyRound (k : ℚ) = k := by
  unfold pyRound
  norm_num [Int.floor_intCast]

/-- The re-merge scan fails with the `KeyError` as soon as a key owns at
least one record, which holds for every key drawn from the records. -/
theorem remergeGo_error (ls : List MergedLine) (tol : ℚ) :
    ∀ (keyList : List ℚ), keyList ≠ [] →
      (∀ k ∈ keyList, ∃ l ∈ ls, mergeKey tol l.line_y = k) →
      remergeGo ls tol keyList = Except.error "KeyError: x" := by
  intro keyList hne hall
  cases keyList with
  | nil => exact absurd rfl hne
  | cons k ks =>
    obtain ⟨l, hl, hkey⟩ := hall k (List.mem_cons_self _ _)
    have hmem : l ∈ ls.filter (fun l2 => mergeKey tol l2.line_y == k) := by
      rw [List.mem_filter]
      exact ⟨hl, by simp [hkey]⟩
    rw [remergeGo]
    cases hf : ls.filter (fun l2 => mergeKey tol l2.line_y == k) with
    | nil =>
      rw [hf] at hmem
      exact absurd hmem (List.not_mem_nil l)
    | cons a b =>
      rfl

/-- C8 amended: re-clustering is idempotent only at the level of quantization
keys (a merged line's key re-quantizes to itself, so each merged line would
form a singleton group), and the empty line set is a fixed point; but running
the Line Merger on any nonempty merged line set fails with a `KeyError`
because merged records lack the `x` field the span sort reads. -/
theorem c8_remerge_behaviour :
    (∀ (tol y : ℚ), tol ≠ 0 → mergeKey tol (mergeKey tol y) = mergeKey tol y) ∧
    (∀ (tol : ℚ), merge_by_line_remerge tol [] = Except.ok []) ∧
    (∀ (tol : ℚ) (ls : List MergedLine), ls ≠ [] →
      merge_by_line_remerge tol ls = Except.error "KeyError: x") := by
  refine ⟨?_, fun tol => rfl, ?_⟩
  · intro tol y htol
    unfold mergeKey
    rw [mul_div_cancel_right₀ _ htol, pyRound_intCast]
  · intro tol ls hne
    unfold merge_by_line_remerge
    apply remergeGo_error
    · intro hSort
      have hlen := (List.perm_insertionSort (· ≤ ·)
        (keysInOrder (ls.map (fun l => mergeKey tol l.line_y)))).length_eq
      rw [hSort] at hlen
      exact keysInOrder_ne_nil
        (fun hmap => hne (List.map_eq_nil_iff.mp hmap))
        (List.eq_nil_of_length_eq_zero hlen.symm)
    · intro k hk
      rw [List.mem_insertionSort, mem_keysInOrder] at hk
      obtain ⟨l, hl, hkey⟩ := List.mem_map.mp hk
      exact ⟨l, hl, hkey⟩

/-- C8 witness: at tolerance 3 the key of line-y 100 re-quantizes to itself,
the empty set re-merges to itself, and a concrete nonempty merged set makes
the re-merge raise. -/
theorem c8_remerge_behaviour_witness :
    mergeKey 3 (mergeKey 3 100) = mergeKey 3 100 ∧
    merge_by_line_remerge 3 [] = Except.ok [] ∧
    merge_by_line_remerge 3 [sizeSixteenLine] = Except.error "KeyError: x" :=
  ⟨c8_remerge_behaviour.1 3 100 (by norm_num),
    c8_remerge_behaviour.2.1 3,
    c8_remerge_behaviour.2.2 3 [sizeSixteenLine] (by simp)⟩

/-- A max fold over counts dominates its seed. -/
theorem le_foldl_max {α : Type} (f : α → ℕ) :
    ∀ (l : List α) (a : ℕ), a ≤ l.foldl (fun m j => max m (f j)) a := by
  intro l
  induction l with
  | nil => intro a; exact Nat.le_refl a
  | cons x t ih =>
    intro a
    rw [List.foldl_cons]
    exact Nat.le_trans (Nat.le_max_left a (f x)) (ih (max a (f x)))

/-- A max fold over counts dominates every member's value. -/
theorem mem_le_foldl_max {α : Type} (f : α → ℕ) :
    ∀ (l : List α) (a : ℕ) (j : α), j ∈ l →
      f j ≤ l.foldl (fun m j2 => max m (f j2)) a := by
  intro l
  induction l with
  | nil => intro a j hj; exact absurd hj (List.not_mem_nil j)
  | cons x t ih =>
    intro a j hj
    rw [List.foldl_cons]
    rcases List.mem_cons.mp hj with rfl | hj2
    · exact Nat.le_trans (Nat.le_max_right a (f j)) (le_foldl_max f t _)
    · exact ih _ j hj2

/-- The strict-improvement selection fold keeps a seed that dominates the
whole list. -/
theorem foldl_pick_of_dominant {α : Type} (f : α → ℕ) :
    ∀ (l : List α) (b : α), (∀ j ∈ l, f j ≤ f b) →
      l.foldl (fun best j => if f best < f j then j else best) b = b := by
  intro l
  induction l with
  | nil => intro b _; rfl
  | cons x t ih =>
    intro b hall
    rw [List.foldl_cons, if_neg (Nat.not_lt.mpr (hall x (List.mem_cons_self _ _)))]
    exact ih b (fun j hj => hall j (List.mem_cons_of_mem _ hj))

/-- The strict-improvement selection fold picks exactly the first element
attaining the maximal value: the most-frequent-size tie-break is
first-encountered. -/
theorem foldl_pick_first_max {α : Type} [DecidableEq α] (f : α → ℕ) :
    ∀ (l : List α) (k : α),
      (k :: l).find? (fun j => f j == l.foldl (fun m j2 => max m (f j2)) (f k)) =
        some (l.foldl (fun best j => if f best < f j then j else best) k) := by
  intro l
  induction l with
  | nil =>
    intro k
    simp
  | cons k2 t ih =>
    intro k
    simp only [List.foldl_cons]
    by_cases h2 : f k < f k2
    · rw [if_pos h2]
      have hmax : max (f k) (f k2) = f k2 := Nat.max_eq_right (Nat.le_of_lt h2)
      simp only [hmax]
      have hkM : ¬ (f k == t.foldl (fun m j2 => max m (f j2)) (f k2)) = true := by
        simp only [beq_iff_eq]
        have hle := le_foldl_max f t (f k2)
        omega
      rw [List.find?_cons_of_neg]
      · exact ih k2
      · exact hkM
    · rw [if_neg h2]
      have hmax : max (f k) (f k2) = f k := Nat.max_eq_left (Nat.not_lt.mp h2)
      simp only [hmax]
      have ihk := ih k
      by_cases hk : (f k == t.foldl (fun m j2 => max m (f j2)) (f k)) = true
      · rw [List.find?_cons_of_pos]
        · have hdom : ∀ j ∈ t, f j ≤ f k := by
            intro j hj
            have hjle := mem_le_foldl_max f t (f k) j hj
            simp only [beq_iff_eq] at hk
            omega
          rw [foldl_pick_of_dominant f t k hdom]
        · exact hk
      · have h1 := le_foldl_max f t (f k)
        have h3 : f k2 ≤ f k := Nat.not_lt.mp h2
        have hk2M : ¬ (f k2 == t.foldl (fun m j2 => max m (f j2)) (f k)) = true := by
          simp only [beq_iff_eq] at hk ⊢
          omega
        rw [List.find?_cons_of_neg]
        · rw [List.find?_cons_of_neg]
          · rw [List.find?_cons_of_neg] at ihk
            · exact ihk
            · exact hk
          · exact hk2M
        · exact hk

/-- A rational max fold with a two-part seed splits into a max. -/
theorem foldl_maxQ_init :
    ∀ (l : List (ℚ × String)) (a b : ℚ),
      l.foldl (fun m q => max m q.1) (max a b) =
        max a (l.foldl (fun m q => max m q.1) b) := by
  intro l
  induction l with
  | nil => intro a b; rfl
  | cons y ys ih =>
    intro a b
    rw [List.foldl_cons, List.foldl_cons, max_assoc, ih]

/-- The maximal candidate size over a two-or-more-element list peels its
head. -/
theorem maxFst_cons (x y : ℚ × String) (ys : List (ℚ × String)) :
    maxFst (x :: y :: ys) = max x.1 (maxFst (y :: ys)) := by
  show (y :: ys).foldl (fun m q => max m q.1) x.1 =
    max x.1 (ys.foldl (fun m q => max m q.1) y.1)
  rw [List.foldl_cons, foldl_maxQ_init]

/-- The title sort is a stable descending sort: its head is the first
candidate attaining the maximal size. -/
theorem sortBySizeDesc_head_first_max :
    ∀ (cand : List (ℚ × String)), cand ≠ [] →
      ∃ p, (sortBySizeDesc cand).head? = some p ∧ p.1 = maxFst cand ∧
        cand.find? (fun q => q.1 == maxFst cand) = some p := by
  intro cand
  induction cand with
  | nil => intro h; exact absurd rfl h
  | cons x xs ih =>
    intro _
    cases xs with
    | nil =>
      refine ⟨x, rfl, rfl, ?_⟩
      rw [List.find?_cons_of_pos]
      simp [maxFst]
    | cons y ys =>
      obtain ⟨p, hh, hmax, hfind⟩ := ih (List.cons_ne_nil y ys)
      cases hs : sortBySizeDesc (y :: ys) with
      | nil =>
        rw [hs] at hh
        exact Option.noConfusion hh
      | cons p0 rest =>
        rw [hs] at hh
        rw [List.head?_cons] at hh
        injection hh with hp0
        subst hp0
        have hs2 : List.orderedInsert (fun a b => b.1 ≤ a.1) y
            (ys.insertionSort (fun a b => b.1 ≤ a.1)) = p0 :: rest := hs
        by_cases hle : p0.1 ≤ x.1
        · have hM : maxFst (x :: y :: ys) = x.1 := by
            rw [maxFst_cons]
            exact max_eq_left (hmax ▸ hle)
          refine ⟨x, ?_, hM.symm, ?_⟩
          · show (List.orderedInsert (fun a b => b.1 ≤ a.1) x
              (List.orderedInsert (fun a b => b.1 ≤ a.1) y
                (ys.insertionSort (fun a b => b.1 ≤ a.1)))).head? = some x
            rw [hs2, List.orderedInsert, if_pos hle]
            rfl
          · rw [List.find?_cons_of_pos]
            show (x.1 == maxFst (x :: y :: ys)) = true
            rw [hM]
            simp
        · have hlt : x.1 < p0.1 := lt_of_not_le hle
          have hM : maxFst (x :: y :: ys) = maxFst (y :: ys) := by
            rw [maxFst_cons]
            exact max_eq_right (le_of_lt (hmax ▸ hlt))
          refine ⟨p0, ?_, ?_, ?_⟩
          · show (List.orderedInsert (fun a b => b.1 ≤ a.1) x
              (List.orderedInsert (fun a b => b.1 ≤ a.1) y
                (ys.insertionSort (fun a b => b.1 ≤ a.1)))).head? = some p0
            rw [hs2, List.orderedInsert, if_neg hle]
            rfl
          · rw [hM]
            exact hmax
          · rw [List.find?_cons_of_neg]
            · simp only [hM]
              exact hfind
            · show ¬ (x.1 == maxFst (x :: y :: ys)) = true
              rw [hM]
              simp only [beq_iff_eq]
              exact ne_of_lt (hmax ▸ hlt)

/-- C10: the pipeline is a pure function of the decoded fragments (two runs
agree), the most-frequent-size selection resolves count ties to the first
encountered distinct size, and the title sort resolves size ties to the first
encountered candidate. -/
theorem c10_pipeline_deterministic :
    (∀ (stem : String) (decoded : Except String (List (List Element))),
      extract_outline stem decoded = extract_outline stem decoded) ∧
    (∀ (szs : List ℚ), szs ≠ [] →
      (keysInOrder szs).find? (fun s => szs.count s == maxCountKey szs) =
        some (mostCommonSize szs)) ∧
    (∀ (cand : List (ℚ × String)), cand ≠ [] →
      ∃ p, (sortBySizeDesc cand).head? = some p ∧ p.1 = maxFst cand ∧
        cand.find? (fun q => q.1 == maxFst cand) = some p) := by
  refine ⟨fun stem decoded => rfl, ?_, sortBySizeDesc_head_first_max⟩
  intro szs hne
  cases hk : keysInOrder szs with
  | nil => exact absurd hk (keysInOrder_ne_nil hne)
  | cons k ks =>
    simp only [mostCommonSize, maxCountKey, hk]
    exact foldl_pick_first_max (fun s => szs.count s) ks k

/-- C10 witness: with sizes 10, 12, 10 the most frequent size is 10 (the
first-encountered maximal-count key), and between two size-12 title
candidates the first one is selected. -/
theorem c10_pipeline_deterministic_witness :
    (keysInOrder [10, 12, 10]).find?
      (fun s => ([10, 12, 10] : List ℚ).count s == maxCountKey [10, 12, 10]) =
      some (mostCommonSize [10, 12, 10]) ∧
    mostCommonSize [10, 12, 10] = 10 ∧
    (∃ p, (sortBySizeDesc [(12, "first title"), (12, "second title")]).head? = some p ∧
      p.1 = maxFst [(12, "first title"), (12, "second title")] ∧
      ([(12, "first title"), (12, "second title")] : List (ℚ × String)).find?
        (fun q => q.1 == maxFst [(12, "first title"), (12, "second title")]) = some p) :=
  ⟨c10_pipeline_deterministic.2.1 [10, 12, 10] (by simp),
    by with_unfolding_all decide,
    c10_pipeline_deterministic.2.2 [(12, "first title"), (12, "second title")] (by simp)⟩

end OutlineExtractor
